import Mathlib

/-!
# Verification of the wakoshi-implant client-side scripts

A shallow embedding, in Lean 4, of the browser JavaScript of this repository:

* `assets/js/component_loader.js` / `public/js/component_loader.js` — the
  `use:ComponentName` template-expansion engine (`parseAndLoadComponents`,
  `createNodeWithExecutableScripts`);
* `assets/js/gallery_loader.js`, `public/js/gallery_loader.js` and the
  unnamed gallery loader — gallery hydration from `modules/gallery.json`;
* `assets/js/main.js` — the auto-scrolling carousel `tick`.

Strings are modelled as `List Char` (`Str`), DOM trees as the inductive
`Node` (tag names stored in their canonical `tagName` form, i.e. uppercase
for HTML elements), fetches as explicit outcome functions, and the mutable
loops as pure recursive functions.  Machine-checked theorems about these
definitions settle the frozen claims about the scripts.
-/

/-- Strings at the character level: JS strings are modelled as `List Char`. -/
abbrev Str := List Char

/-- Coerce a Lean string literal to the `Str` model. -/
def str (s : String) : Str := s.toList

/-- The opening brace character, `\x7b`. -/
def lb : Char := '\x7b'

/-- The closing brace character, `\x7d`. -/
def rb : Char := '\x7d'

/-- The ASCII whitespace class of the JS regex `\s` (the code points that
matter for HTML text: space, tab, LF, CR, VT, FF). -/
def isSpaceChar (c : Char) : Bool :=
  c = ' ' || c = '\t' || c = '\n' || c = '\r' || c = '\x0b' || c = '\x0c'

/-- A DOM node: a text node, a comment node, or an element with a tag name
(in `tagName` canonical case), an attribute list (name/value pairs in
document order) and a child list. -/
inductive Node where
  | text : Str → Node
  | comment : Str → Node
  | elem : String → List (Str × Str) → List Node → Node

mutual

/-- Boolean equality of DOM nodes. -/
def Node.beq : Node → Node → Bool
  | .text a, .text b => a = b
  | .comment a, .comment b => a = b
  | .elem t1 a1 c1, .elem t2 a2 c2 => t1 = t2 && a1 = a2 && Node.beqList c1 c2
  | _, _ => false

/-- Boolean equality of DOM node lists. -/
def Node.beqList : List Node → List Node → Bool
  | [], [] => true
  | x :: xs, y :: ys => Node.beq x y && Node.beqList xs ys
  | _, _ => false

end

mutual

theorem Node.beq_iff : ∀ a b : Node, Node.beq a b = true ↔ a = b
  | .text a, .text b => by simp [Node.beq]
  | .text _, .comment _ => by simp [Node.beq]
  | .text _, .elem _ _ _ => by simp [Node.beq]
  | .comment _, .text _ => by simp [Node.beq]
  | .comment a, .comment b => by simp [Node.beq]
  | .comment _, .elem _ _ _ => by simp [Node.beq]
  | .elem _ _ _, .text _ => by simp [Node.beq]
  | .elem _ _ _, .comment _ => by simp [Node.beq]
  | .elem t1 a1 c1, .elem t2 a2 c2 => by
      simp [Node.beq, Node.beqList_iff c1 c2, and_assoc]

theorem Node.beqList_iff : ∀ a b : List Node, Node.beqList a b = true ↔ a = b
  | [], [] => by simp [Node.beqList]
  | [], _ :: _ => by simp [Node.beqList]
  | _ :: _, [] => by simp [Node.beqList]
  | x :: xs, y :: ys => by
      simp [Node.beqList, Node.beq_iff x y, Node.beqList_iff xs ys]

end

instance : DecidableEq Node := fun a b => decidable_of_iff _ (Node.beq_iff a b)

/-! ## `createNodeWithExecutableScripts` (both component loaders)

```js
function createNodeWithExecutableScripts(node) {
    if (node.nodeType === Node.ELEMENT_NODE && node.tagName === 'SCRIPT') {
        const newScript = document.createElement('script');
        Array.from(node.attributes).forEach(attr => newScript.setAttribute(attr.name, attr.value));
        newScript.textContent = node.textContent;
        return newScript;
    }
    const clone = node.cloneNode(false);
    if (node.nodeType === Node.ELEMENT_NODE) {
        let child = node.firstChild;
        while (child) {
            clone.appendChild(createNodeWithExecutableScripts(child));
            child = child.nextSibling;
        }
    }
    return clone;
}
```
-/

/-- The canonical `tagName` of an HTML `<script>` element. -/
def scriptTag : String := "SCRIPT"

mutual

/-- `node.textContent`: the concatenated data of all descendant text nodes
(comment data is not part of an element's `textContent`). -/
def Node.textContent : Node → Str
  | .text s => s
  | .comment _ => []
  | .elem _ _ cs => Node.textContentList cs

/-- `textContent` concatenated over a list of sibling nodes. -/
def Node.textContentList : List Node → Str
  | [] => []
  | c :: cs => Node.textContent c ++ Node.textContentList cs

end

/-- The children produced by the DOM assignment `el.textContent = s`: no
child for the empty string, otherwise a single text node holding `s`. -/
def mkTextContentChildren (s : Str) : List Node :=
  if s.isEmpty then [] else [.text s]

mutual

/-- `createNodeWithExecutableScripts`: a SCRIPT element becomes a freshly
created script element with the same attributes and the same `textContent`
(so the browser executes it on insertion); every other node is a shallow
clone whose children are the recursively processed children. -/
def createNodeWithExecutableScripts : Node → Node
  | .text s => .text s
  | .comment s => .comment s
  | .elem tag attrs cs =>
      if tag = scriptTag then
        .elem tag attrs (mkTextContentChildren (Node.textContentList cs))
      else
        .elem tag attrs (createNodeListWithExecutableScripts cs)

/-- `createNodeWithExecutableScripts` mapped over a child list (the
`while (child) ... child = child.nextSibling` loop). -/
def createNodeListWithExecutableScripts : List Node → List Node
  | [] => []
  | c :: cs =>
      createNodeWithExecutableScripts c :: createNodeListWithExecutableScripts cs

end

/-- A SCRIPT element's children as produced by `innerHTML` parsing: either
no child at all, or a single nonempty text node. -/
def scriptChildrenOk : List Node → Bool
  | [] => true
  | [Node.text s] => !s.isEmpty
  | [Node.comment _] => false
  | [Node.elem _ _ _] => false
  | _ :: _ :: _ => false

mutual

/-- Every SCRIPT element in the tree has `innerHTML`-parser-shaped
children ([] or a single nonempty text node). -/
def Node.wfScripts : Node → Bool
  | .text _ => true
  | .comment _ => true
  | .elem tag _ cs =>
      (if tag = scriptTag then scriptChildrenOk cs else true) && Node.wfScriptsList cs

/-- `Node.wfScripts` over a list of sibling nodes. -/
def Node.wfScriptsList : List Node → Bool
  | [] => true
  | c :: cs => Node.wfScripts c && Node.wfScriptsList cs

end

/-- Rebuilding a node list from its concatenated text: on
`innerHTML`-parser-shaped script children this is the identity. -/
theorem mkTextContentChildren_of_ok :
    ∀ cs : List Node, scriptChildrenOk cs = true →
      mkTextContentChildren (Node.textContentList cs) = cs
  | [], _ => rfl
  | [Node.text s], h => by
      simp only [scriptChildrenOk, Bool.not_eq_true'] at h
      simp [Node.textContentList, Node.textContent, mkTextContentChildren, h]
  | [Node.comment _], h => by simp [scriptChildrenOk] at h
  | [Node.elem _ _ _], h => by simp [scriptChildrenOk] at h
  | _ :: _ :: _, h => by simp [scriptChildrenOk] at h

/-- Setting `textContent` to a string `s` yields children whose
`textContent` is `s` again. -/
theorem textContentList_mkTextContentChildren (s : Str) :
    Node.textContentList (mkTextContentChildren s) = s := by
  by_cases hs : s.isEmpty
  · rw [List.isEmpty_iff] at hs
    simp [mkTextContentChildren, hs, Node.textContentList]
  · simp [mkTextContentChildren, hs, Node.textContentList, Node.textContent]

mutual

theorem createNode_textContent_aux :
    ∀ n : Node,
      Node.textContent (createNodeWithExecutableScripts n) = Node.textContent n
  | .text _ => rfl
  | .comment _ => rfl
  | .elem tag attrs cs => by
      by_cases ht : tag = scriptTag
      · simp only [createNodeWithExecutableScripts, if_pos ht, Node.textContent]
        exact textContentList_mkTextContentChildren _
      · simp only [createNodeWithExecutableScripts, if_neg ht, Node.textContent]
        exact createNodeList_textContent_aux cs

theorem createNodeList_textContent_aux :
    ∀ cs : List Node,
      Node.textContentList (createNodeListWithExecutableScripts cs) =
        Node.textContentList cs
  | [] => rfl
  | c :: cs => by
      simp only [createNodeListWithExecutableScripts, Node.textContentList,
        createNode_textContent_aux c, createNodeList_textContent_aux cs]

end

mutual

theorem createNode_wf_aux :
    ∀ n : Node, Node.wfScripts n = true → createNodeWithExecutableScripts n = n
  | .text _, _ => rfl
  | .comment _, _ => rfl
  | .elem tag attrs cs, h => by
      simp only [Node.wfScripts] at h
      by_cases ht : tag = scriptTag
      · rw [if_pos ht, Bool.and_eq_true] at h
        simp only [createNodeWithExecutableScripts, if_pos ht]
        rw [mkTextContentChildren_of_ok cs h.1]
      · rw [if_neg ht, Bool.and_eq_true] at h
        simp only [createNodeWithExecutableScripts, if_neg ht]
        rw [createNodeList_wf_aux cs h.2]

theorem createNodeList_wf_aux :
    ∀ cs : List Node,
      Node.wfScriptsList cs = true → createNodeListWithExecutableScripts cs = cs
  | [], _ => rfl
  | c :: cs, h => by
      simp only [Node.wfScriptsList, Bool.and_eq_true] at h
      simp only [createNodeListWithExecutableScripts,
        createNode_wf_aux c h.1, createNodeList_wf_aux cs h.2]

end

/-- **C4 (counterexample).** The claim "the output tree has the same shape,
tag names, attributes, and text as the input tree" fails for a SCRIPT
element whose children are two adjacent text nodes: the output carries a
single merged text child, so its shape differs from the input's. -/
theorem createNode_not_always_same_shape :
    createNodeWithExecutableScripts
        (.elem "SCRIPT" [] [.text (str "a"), .text (str "b")]) ≠
      .elem "SCRIPT" [] [.text (str "a"), .text (str "b")] := by
  decide

/-- **C4 (amended).** `createNodeWithExecutableScripts` always preserves
`textContent`, and whenever every SCRIPT element of the input has
`innerHTML`-parser-shaped children (none, or a single nonempty text node)
the output tree equals the input tree — same shape, tag names, attributes,
and text. -/
theorem createNode_preserves_tree :
    (∀ n : Node,
        Node.textContent (createNodeWithExecutableScripts n) = Node.textContent n) ∧
      ∀ n : Node, Node.wfScripts n = true → createNodeWithExecutableScripts n = n :=
  ⟨createNode_textContent_aux, createNode_wf_aux⟩

/-- Witness for C4: on a concrete well-formed tree (a DIV holding a SCRIPT
with one nonempty text child) the processed tree equals the input. -/
theorem createNode_preserves_tree_witness :
    Node.wfScripts
        (.elem "DIV" [] [.elem "SCRIPT" [] [.text (str "x()")], .text (str "t")]) = true ∧
      createNodeWithExecutableScripts
          (.elem "DIV" [] [.elem "SCRIPT" [] [.text (str "x()")], .text (str "t")]) =
        .elem "DIV" [] [.elem "SCRIPT" [] [.text (str "x()")], .text (str "t")] :=
  ⟨by decide,
   createNode_preserves_tree.2
     (.elem "DIV" [] [.elem "SCRIPT" [] [.text (str "x()")], .text (str "t")])
     (by decide)⟩

/-! ## The carousel animation tick (`assets/js/main.js`)

```js
function tick() {
  offsetX -= step;
  const w = seedWidth();
  if (-offsetX >= w) {
    offsetX += w;
  }
  mover.style.transform = `translateX(${offsetX}px)`;
  rafId = requestAnimationFrame(tick);
}
```

For a fixed seed width `w` and step `step` the update of `offsetX` is the
pure function `tick` below (JS numbers are modelled as rationals). -/

/-- One execution of the carousel `tick` body on the `offsetX` state:
subtract the step, then wrap by adding the seed width when the offset has
travelled at least one seed width to the left. -/
def tick (w step x : ℚ) : ℚ :=
  let y := x - step
  if w ≤ -y then y + w else y

/-- `offsetX` after `n` executions of `tick`, starting from the initial
`let offsetX = 0`. -/
def tickIter (w step : ℚ) (n : ℕ) : ℚ :=
  (tick w step)^[n] 0

theorem tick_mem_Ioc {w step x : ℚ} (hs0 : 0 ≤ step)
    (hsw : step ≤ w) (hx : -w < x ∧ x ≤ 0) :
    -w < tick w step x ∧ tick w step x ≤ 0 := by
  obtain ⟨hxl, hxu⟩ := hx
  unfold tick
  by_cases h : w ≤ -(x - step)
  · rw [if_pos h]
    constructor <;> linarith
  · rw [if_neg h]
    constructor <;> linarith

/-- **C9.** In the `main.js` carousel animation, for any fixed seed width
`w > 0` and fixed step `0 ≤ step ≤ w`, starting from `offsetX = 0`, after
every execution of `tick` the offset satisfies `-w < offsetX ≤ 0`: the wrap
branch adds `w` exactly when `-offsetX ≥ w`, so the translation never
drifts beyond one seed width. -/
theorem tick_offset_bounded (w step : ℚ) (hw : 0 < w) (hs0 : 0 ≤ step)
    (hsw : step ≤ w) (n : ℕ) :
    -w < tickIter w step n ∧ tickIter w step n ≤ 0 := by
  induction n with
  | zero =>
      simp [tickIter]
      linarith
  | succ k ih =>
      have : tickIter w step (k + 1) = tick w step (tickIter w step k) := by
        simp [tickIter, Function.iterate_succ_apply']
      rw [this]
      exact tick_mem_Ioc hs0 hsw ih

/-- Witness for C9: at `w = 2`, `step = 1`, after three ticks the offset is
inside `(-2, 0]`. -/
theorem tick_offset_bounded_witness :
    -(2 : ℚ) < tickIter 2 1 3 ∧ tickIter 2 1 3 ≤ 0 :=
  tick_offset_bounded 2 1 (by norm_num) (by norm_num) (by norm_num) 3

/-! ## The gallery loaders

`public/js/gallery_loader.js` and the unnamed gallery loader hydrate the
pre-injected `#gallery-container` on the `componentsReady` event:

```js
const container = document.getElementById('gallery-container');
if (!container) { return; }
if (container.classList.contains('gallery-initialized')) { return; }
const jsonResponse = await fetch('/modules/gallery.json');
if (!jsonResponse.ok) { throw new Error('Failed to load gallery data'); }
const data = await jsonResponse.json();
const track = container.querySelector('.gallery-track');
const cardTemplate = document.getElementById('gallery-card-template');
if (!track || !cardTemplate) { console.error(...); return; }
if (data.settings && data.settings.duration) { track.style.setProperty(...); }
const originalItems = data.items;
let renderItems = [...originalItems, ...originalItems];
if (originalItems.length < 5) {
    renderItems = [...renderItems, ...originalItems, ...originalItems];
}
renderItems.forEach(item => {
    const clone = cardTemplate.content.cloneNode(true);
    const img = clone.querySelector('img');
    if (img) { img.src = item.src; img.alt = item.alt; }
    track.appendChild(clone);
});
track.classList.add('gallery-track-animated');
container.classList.add('gallery-initialized');
```
-/

/-- `el.setAttribute(k, v)`: overwrite in place when the attribute exists,
otherwise append it. -/
def setAttr : List (Str × Str) → Str → Str → List (Str × Str)
  | [], k, v => [(k, v)]
  | (a, b) :: rest, k, v =>
      if a = k then (k, v) :: rest else (a, b) :: setAttr rest k v

/-- `el.getAttribute(k)`: the value of the first attribute named `k`. -/
def getAttr : List (Str × Str) → Str → Option Str
  | [], _ => none
  | (a, b) :: rest, k => if a = k then some b else getAttr rest k

theorem getAttr_setAttr_self (a : List (Str × Str)) (k v : Str) :
    getAttr (setAttr a k v) k = some v := by
  induction a with
  | nil => simp [setAttr, getAttr]
  | cons p rest ih =>
      obtain ⟨x, y⟩ := p
      by_cases hx : x = k
      · simp [setAttr, hx, getAttr]
      · simp [setAttr, hx, getAttr, ih]

theorem getAttr_setAttr_ne (a : List (Str × Str)) {k k' : Str} (v : Str)
    (h : k' ≠ k) : getAttr (setAttr a k v) k' = getAttr a k' := by
  induction a with
  | nil => simp [setAttr, getAttr, Ne.symm h]
  | cons p rest ih =>
      obtain ⟨x, y⟩ := p
      by_cases hx : x = k
      · subst hx
        simp [setAttr, getAttr, Ne.symm h]
      · simp [setAttr, hx, getAttr, ih]

/-- The canonical `tagName` of an HTML `<img>` element (`querySelector('img')`
matches elements whose `tagName` is `IMG`). -/
def imgTag : String := "IMG"

/-- One entry of the `items` array of `modules/gallery.json`. -/
structure GalleryItem where
  src : Str
  alt : Str
deriving DecidableEq

/-- The attributes produced by `img.src = item.src; img.alt = item.alt`. -/
def imgItemAttrs (it : GalleryItem) (a : List (Str × Str)) : List (Str × Str) :=
  setAttr (setAttr a (str "src") it.src) (str "alt") it.alt

mutual

/-- Set `src`/`alt` on the first `<img>` of the subtree (document order),
returning the updated node and whether an `<img>` was found — the effect of
`clone.querySelector('img')` followed by the two property writes. -/
def setImgNode (it : GalleryItem) : Node → Node × Bool
  | .text s => (.text s, false)
  | .comment s => (.comment s, false)
  | .elem tag attrs cs =>
      if tag = imgTag then (.elem tag (imgItemAttrs it attrs) cs, true)
      else
        let r := setImgList it cs
        (.elem tag attrs r.1, r.2)

/-- `setImgNode` over a sibling list: update the first subtree containing
an `<img>`, leave the rest untouched. -/
def setImgList (it : GalleryItem) : List Node → List Node × Bool
  | [] => ([], false)
  | c :: cs =>
      let r := setImgNode it c
      if r.2 then (r.1 :: cs, true)
      else
        let r2 := setImgList it cs
        (c :: r2.1, r2.2)

end

mutual

/-- The attribute list of the first `<img>` of the subtree, document order
(`querySelector('img')`). -/
def firstImgAttrs : Node → Option (List (Str × Str))
  | .text _ => none
  | .comment _ => none
  | .elem tag attrs cs =>
      if tag = imgTag then some attrs else firstImgAttrsList cs

/-- `firstImgAttrs` over a sibling list (a document fragment). -/
def firstImgAttrsList : List Node → Option (List (Str × Str))
  | [] => none
  | c :: cs =>
      match firstImgAttrs c with
      | some a => some a
      | none => firstImgAttrsList cs

end

mutual

theorem setImgNode_of_none (it : GalleryItem) :
    ∀ n : Node, firstImgAttrs n = none → setImgNode it n = (n, false)
  | .text _, _ => rfl
  | .comment _, _ => rfl
  | .elem tag attrs cs, h => by
      simp only [firstImgAttrs] at h
      by_cases ht : tag = imgTag
      · rw [if_pos ht] at h
        exact absurd h (by simp)
      · rw [if_neg ht] at h
        simp only [setImgNode, if_neg ht, setImgList_of_none it cs h]

theorem setImgList_of_none (it : GalleryItem) :
    ∀ cs : List Node, firstImgAttrsList cs = none → setImgList it cs = (cs, false)
  | [], _ => rfl
  | c :: cs, h => by
      cases hc : firstImgAttrs c with
      | some a => simp [firstImgAttrsList, hc] at h
      | none =>
          simp only [firstImgAttrsList, hc] at h
          simp [setImgList, setImgNode_of_none it c hc,
            setImgList_of_none it cs h]

end

mutual

theorem setImgNode_of_some (it : GalleryItem) :
    ∀ (n : Node) (a : List (Str × Str)), firstImgAttrs n = some a →
      (setImgNode it n).2 = true ∧
        firstImgAttrs (setImgNode it n).1 = some (imgItemAttrs it a)
  | .text _, a, h => by simp [firstImgAttrs] at h
  | .comment _, a, h => by simp [firstImgAttrs] at h
  | .elem tag attrs cs, a, h => by
      simp only [firstImgAttrs] at h
      by_cases ht : tag = imgTag
      · rw [if_pos ht] at h
        obtain rfl : attrs = a := by simpa using h
        simp [setImgNode, if_pos ht, firstImgAttrs, ht]
      · rw [if_neg ht] at h
        obtain ⟨h2, h1⟩ := setImgList_of_some it cs a h
        simp [setImgNode, if_neg ht, h2, firstImgAttrs, ht, h1]

theorem setImgList_of_some (it : GalleryItem) :
    ∀ (cs : List Node) (a : List (Str × Str)), firstImgAttrsList cs = some a →
      (setImgList it cs).2 = true ∧
        firstImgAttrsList (setImgList it cs).1 = some (imgItemAttrs it a)
  | [], a, h => by simp [firstImgAttrsList] at h
  | c :: cs, a, h => by
      cases hc : firstImgAttrs c with
      | some a0 =>
          simp only [firstImgAttrsList, hc] at h
          have ha : a0 = a := by simpa using h
          obtain ⟨h2, h1⟩ := setImgNode_of_some it c a0 hc
          refine ⟨by simp [setImgList, h2], ?_⟩
          simp [setImgList, h2, firstImgAttrsList, h1, ha]
      | none =>
          simp only [firstImgAttrsList, hc] at h
          obtain ⟨h2, h1⟩ := setImgList_of_some it cs a h
          refine ⟨by simp [setImgList, setImgNode_of_none it c hc, h2], ?_⟩
          simp [setImgList, setImgNode_of_none it c hc, firstImgAttrsList, hc, h2, h1]

end

/-- The `renderItems` array of the gallery loaders: the items doubled, and
doubled once more when there are fewer than five of them. -/
def renderItemsList (items : List GalleryItem) : List GalleryItem :=
  let renderItems := items ++ items
  if items.length < 5 then renderItems ++ items ++ items else renderItems

/-- The card fragments appended to `.gallery-track` by the `forEach` loop:
one clone of the card template per entry of `renderItems`, with the first
`<img>` of the clone pointed at the entry. -/
def galleryCards (tpl : List Node) (items : List GalleryItem) : List (List Node) :=
  (renderItemsList items).map (fun it => (setImgList it tpl).1)

theorem flatten_replicate_getElem {α : Type} (l : List α) :
    ∀ (k i : ℕ), i < k * l.length →
      (List.replicate k l).flatten[i]? = l[i % l.length]?
  | 0, i, h => by simp at h
  | k + 1, i, h => by
      have hmul : (k + 1) * l.length = k * l.length + l.length :=
        Nat.succ_mul k l.length
      have hflat : (List.replicate (k + 1) l).flatten = l ++ (List.replicate k l).flatten := by
        simp [List.replicate_succ]
      rw [hflat]
      by_cases hi : i < l.length
      · rw [List.getElem?_append, if_pos hi, Nat.mod_eq_of_lt hi]
      · push_neg at hi
        rw [List.getElem?_append, if_neg (by omega)]
        rw [flatten_replicate_getElem l k (i - l.length) (by omega)]
        rw [Nat.mod_eq_sub_mod hi]

theorem renderItemsList_eq_flatten (items : List GalleryItem) :
    renderItemsList items =
      (List.replicate (if items.length < 5 then 4 else 2) items).flatten := by
  by_cases h : items.length < 5 <;>
    simp [renderItemsList, h, List.replicate_succ, List.append_assoc]

theorem renderItemsList_length (items : List GalleryItem) :
    (renderItemsList items).length =
      if items.length < 5 then 4 * items.length else 2 * items.length := by
  by_cases h : items.length < 5 <;> simp [renderItemsList, h] <;> ring

/-- **C7.** The number of gallery cards appended to the track is `2·n` when
`gallery.json` has `n ≥ 5` items and `4·n` when `n < 5`; the cards repeat
the items array in order, and whenever the card template contains an
`<img>`, the i-th card's first `<img>` carries `src` and `alt` equal to the
`(i mod n)`-th item's fields. -/
theorem gallery_cards_spec (tpl : List Node) (items : List GalleryItem) :
    (galleryCards tpl items).length =
        (if items.length < 5 then 4 * items.length else 2 * items.length) ∧
      ∀ (i : ℕ) (card : List Node), (galleryCards tpl items)[i]? = some card →
        ∃ it : GalleryItem, items[i % items.length]? = some it ∧
          card = (setImgList it tpl).1 ∧
          ∀ a, firstImgAttrsList tpl = some a →
            ∃ a', firstImgAttrsList card = some a' ∧
              getAttr a' (str "src") = some it.src ∧
              getAttr a' (str "alt") = some it.alt := by
  constructor
  · rw [galleryCards, List.length_map, renderItemsList_length]
  · intro i card hcard
    rw [galleryCards, List.getElem?_map] at hcard
    match hr : (renderItemsList items)[i]? with
    | none => rw [hr] at hcard; simp at hcard
    | some it =>
        rw [hr] at hcard
        obtain rfl : (setImgList it tpl).1 = card := by simpa using hcard
        refine ⟨it, ?_, rfl, ?_⟩
        · have hi : i < (renderItemsList items).length :=
            List.getElem?_eq_some.mp hr |>.1
          rw [renderItemsList_length] at hi
          have hik : i < (if items.length < 5 then 4 else 2) * items.length := by
            by_cases h5 : items.length < 5 <;> simp [h5] at hi ⊢ <;> omega
          rw [renderItemsList_eq_flatten, flatten_replicate_getElem items _ i hik] at hr
          exact hr
        · intro a ha
          obtain ⟨-, h1⟩ := setImgList_of_some it tpl a ha
          refine ⟨imgItemAttrs it a, h1, ?_, ?_⟩
          · rw [imgItemAttrs, getAttr_setAttr_ne _ _ (by decide),
              getAttr_setAttr_self]
          · rw [imgItemAttrs, getAttr_setAttr_self]

/-- Witness for C7: a two-item gallery with a one-`<img>` card template
renders eight cards; the card at index 3 shows item `3 mod 2 = 1`. -/
theorem gallery_cards_spec_witness :
    ((galleryCards [Node.elem "IMG" [] []]
        [⟨str "a.png", str "A"⟩, ⟨str "b.png", str "B"⟩]).length = 8) ∧
      ∃ it : GalleryItem,
        [(⟨str "a.png", str "A"⟩ : GalleryItem), ⟨str "b.png", str "B"⟩][3 % 2]? = some it ∧
        [Node.elem "IMG" [(str "src", str "b.png"), (str "alt", str "B")] []] =
          (setImgList it [Node.elem "IMG" [] []]).1 := by
  obtain ⟨hlen, hidx⟩ := gallery_cards_spec [Node.elem "IMG" [] []]
    [⟨str "a.png", str "A"⟩, ⟨str "b.png", str "B"⟩]
  refine ⟨by rw [hlen]; decide, ?_⟩
  obtain ⟨it, h1, h2, -⟩ := hidx 3
    [Node.elem "IMG" [(str "src", str "b.png"), (str "alt", str "B")] []]
    (by decide)
  exact ⟨it, h1, h2⟩

/-- `el.classList.add(c)`: append the class when it is absent. -/
def addClass (cl : List Str) (c : Str) : List Str :=
  if c ∈ cl then cl else cl ++ [c]

/-- The state of the `.gallery-track` element: its inline style properties,
its class list and the card fragments appended so far. -/
structure TrackState where
  styleProps : List (Str × Str)
  classes : List Str
  children : List (List Node)
deriving DecidableEq

/-- The state of the `#gallery-container` element. -/
structure GalleryContainer where
  classes : List Str
  track : Option TrackState
deriving DecidableEq

/-- The parts of the document the gallery handler touches: the
`#gallery-container` lookup and the `#gallery-card-template` content. -/
structure GalleryDoc where
  container : Option GalleryContainer
  cardTemplate : Option (List Node)
deriving DecidableEq

/-- The parsed `modules/gallery.json` payload: optional
`settings.duration` and the `items` array. -/
structure GalleryData where
  duration : Option Str
  items : List GalleryItem
deriving DecidableEq

/-- The class the handler uses as its initialization marker. -/
def galleryInitializedClass : Str := str "gallery-initialized"

/-- The URL the unnamed gallery loader fetches. -/
def galleryJsonUrl : Str := str "/modules/gallery.json"

/-- `if (data.settings && data.settings.duration) track.style.setProperty(...)`. -/
def applyDuration (data : GalleryData) (t : TrackState) : TrackState :=
  match data.duration with
  | some d => { t with styleProps := setAttr t.styleProps (str "--gallery-duration") d }
  | none => t

/-- The `componentsReady` handler of the unnamed gallery loader: bail out
when `#gallery-container` is absent or already carries
`gallery-initialized`; otherwise fetch `/modules/gallery.json` and, when
the fetch, the track and the card template are all available, append the
rendered cards, add the animation class and mark the container
initialized.  Returns the updated document and the list of URLs fetched
during this dispatch. -/
def handleComponentsReady (w : Except Str GalleryData) (d : GalleryDoc) :
    GalleryDoc × List Str :=
  match d.container with
  | none => (d, [])
  | some cont =>
      if galleryInitializedClass ∈ cont.classes then (d, [])
      else
        match w with
        | .error _ => (d, [galleryJsonUrl])
        | .ok data =>
            match cont.track, d.cardTemplate with
            | some track, some tpl =>
                let track1 := applyDuration data track
                let track2 : TrackState :=
                  { track1 with
                    children := track1.children ++ galleryCards tpl data.items
                    classes := addClass track1.classes (str "gallery-track-animated") }
                ({ d with
                    container := some
                      { cont with
                        track := some track2
                        classes := addClass cont.classes galleryInitializedClass } },
                 [galleryJsonUrl])
            | _, _ => (d, [galleryJsonUrl])

/-- **C5.** Gallery hydration is one-shot: once `#gallery-container`
carries the class `gallery-initialized`, any further `componentsReady`
dispatch returns immediately — the document is unchanged and no URL (in
particular not `gallery.json`) is fetched. -/
theorem gallery_hydration_idempotent (w : Except Str GalleryData)
    (d : GalleryDoc) (cont : GalleryContainer)
    (hc : d.container = some cont)
    (hi : galleryInitializedClass ∈ cont.classes) :
    handleComponentsReady w d = (d, []) := by
  simp [handleComponentsReady, hc, hi]

/-- Witness for C5: a concrete marked container is left untouched and
nothing is fetched, whatever the fetch world would answer. -/
theorem gallery_hydration_idempotent_witness :
    handleComponentsReady (.ok ⟨none, [⟨str "a.png", str "A"⟩]⟩)
        ⟨some ⟨[galleryInitializedClass], none⟩, none⟩ =
      (⟨some ⟨[galleryInitializedClass], none⟩, none⟩, []) :=
  gallery_hydration_idempotent _ _ ⟨[galleryInitializedClass], none⟩ rfl
    (by decide)

/-! ## `parseAndLoadComponents` — text-node scanning and expansion

```js
const USE_REGEX = /use:([^\s]+)/g; // Matches "use:Name" until whitespace
...
for (const node of textNodes) {
    const text = node.nodeValue;
    let lastIndex = 0;
    const fragment = document.createDocumentFragment();
    for (const match of text.matchAll(USE_REGEX)) {
        const componentName = match[1];
        const matchStart = match.index;
        const matchEnd = matchStart + match[0].length;
        if (matchStart > lastIndex) {
            fragment.appendChild(document.createTextNode(text.slice(lastIndex, matchStart)));
        }
        const htmlContent = moduleCache[componentName];
        if (htmlContent) {
            const tempDiv = document.createElement('div');
            tempDiv.innerHTML = htmlContent;
            Array.from(tempDiv.childNodes).forEach(child => {
                fragment.appendChild(createNodeWithExecutableScripts(child));
            });
        }
        lastIndex = matchEnd;
    }
    if (lastIndex < text.length) {
        fragment.appendChild(document.createTextNode(text.slice(lastIndex)));
    }
    ...
}
```
-/

/-- The literal `use:` of the regex. -/
def useTagStr : Str := str "use:"

/-- The greedy `[^\s]+` match at the head of the string: the maximal run of
non-whitespace characters and the rest. -/
def takeName : Str → Str × Str
  | [] => ([], [])
  | c :: cs =>
      if isSpaceChar c then ([], c :: cs)
      else
        let r := takeName cs
        (c :: r.1, r.2)

theorem takeName_append : ∀ s : Str, (takeName s).1 ++ (takeName s).2 = s
  | [] => rfl
  | c :: cs => by
      by_cases hc : isSpaceChar c
      · simp [takeName, hc]
      · simp [takeName, hc, takeName_append cs]

theorem takeName_no_space :
    ∀ s : Str, ∀ c ∈ (takeName s).1, isSpaceChar c = false
  | [] => by simp [takeName]
  | c :: cs => by
      by_cases hc : isSpaceChar c
      · simp [takeName, hc]
      · simp only [takeName, if_neg hc]
        intro d hd
        rcases List.mem_cons.mp hd with rfl | hd'
        · exact Bool.eq_false_iff.mpr hc
        · exact takeName_no_space cs d hd'

/-- One attempt of the regex `use:([^\s]+)` at the current position: it
matches when the string starts with the literal `use:` followed by at
least one non-whitespace character, and captures the maximal run. -/
def tryUse (s : Str) : Option (Str × Str) :=
  if useTagStr.isPrefixOf s then
    let r := takeName (s.drop 4)
    if r.1.isEmpty then none else some r
  else none

theorem tryUse_eq_some {s : Str} {n r : Str} (h : tryUse s = some (n, r)) :
    s = useTagStr ++ n ++ r ∧ n ≠ [] ∧ ∀ c ∈ n, isSpaceChar c = false := by
  unfold tryUse at h
  by_cases hp : useTagStr.isPrefixOf s
  · rw [if_pos hp] at h
    by_cases he : (takeName (s.drop 4)).1.isEmpty
    · rw [if_pos he] at h
      exact absurd h (by simp)
    · rw [if_neg he] at h
      have hn : (takeName (s.drop 4)).1 = n ∧ (takeName (s.drop 4)).2 = r := by
        have := Option.some.inj h
        exact ⟨congrArg Prod.fst this, congrArg Prod.snd this⟩
      have hpre : useTagStr <+: s := List.isPrefixOf_iff_prefix.mp hp
      have hs4 : useTagStr = s.take 4 := by
        have := List.prefix_iff_eq_take.mp hpre
        simpa [useTagStr, str] using this
      refine ⟨?_, ?_, ?_⟩
      · conv_lhs => rw [← List.take_append_drop 4 s]
        rw [← hs4, ← hn.1, ← hn.2, List.append_assoc, takeName_append]
      · intro hnil
        rw [← hn.1] at hnil
        simp [List.isEmpty_iff, hnil] at he
      · intro c hc
        rw [← hn.1] at hc
        exact takeName_no_space _ c hc
  · rw [if_neg hp] at h
    exact absurd h (by simp)

theorem tryUse_rest_lt {s : Str} {nr : Str × Str} (h : tryUse s = some nr) :
    nr.2.length < s.length := by
  obtain ⟨n, r⟩ := nr
  obtain ⟨hs, hn, -⟩ := tryUse_eq_some h
  rw [hs]
  have : n.length ≠ 0 := fun h0 => hn (List.length_eq_zero.mp h0)
  simp [useTagStr, str]
  omega

/-- The list of matches produced by `text.matchAll(USE_REGEX)` starting at
absolute position `i`: each entry is the match index and the captured
component name (the full match being `use:` plus the name). -/
def useMatches (s : Str) (i : ℕ) : List (ℕ × Str) :=
  match s with
  | [] => []
  | c :: cs =>
      match h : tryUse (c :: cs) with
      | some nr => (i, nr.1) :: useMatches nr.2 (i + (4 + nr.1.length))
      | none => useMatches cs (i + 1)
termination_by s.length
decreasing_by
  · exact tryUse_rest_lt h
  · simp

/-- A token of a candidate text-node value: a literal stretch of text, or
a `use:Name` command. -/
inductive UseTok where
  | lit : Str → UseTok
  | cmd : Str → UseTok
deriving DecidableEq

/-- The text a token occupies in the original node value. -/
def tokText : UseTok → Str
  | .lit s => s
  | .cmd n => useTagStr ++ n

/-- Decompose a text-node value into literal stretches and `use:Name`
commands, left to right, accumulating the pending literal in `acc`. -/
def scanToks (acc : Str) (s : Str) : List UseTok :=
  match s with
  | [] => if acc.isEmpty then [] else [UseTok.lit acc]
  | c :: cs =>
      match h : tryUse (c :: cs) with
      | some nr =>
          (if acc.isEmpty then [] else [UseTok.lit acc]) ++
            UseTok.cmd nr.1 :: scanToks [] nr.2
      | none => scanToks (acc ++ [c]) cs
termination_by s.length
decreasing_by
  · exact tryUse_rest_lt h
  · simp

/-- The token decomposition of a full text-node value. -/
def useToks (s : Str) : List UseTok := scanToks [] s

/-- `text.slice(a, b)` for `0 ≤ a ≤ b`. -/
def sliceStr (t : Str) (a b : ℕ) : Str := (t.drop a).take (b - a)

/-- The replacement-fragment construction of the step-4 loop of
`parseAndLoadComponents`, recursing over the remaining matches with the
current `lastIndex`: before each match the text slice since `lastIndex` is
kept (when nonempty), then the rendered module content is appended; after
the last match the remaining tail slice is kept (when nonempty). -/
def expandFrom (render : Str → List Node) (text : Str) :
    List (ℕ × Str) → ℕ → List Node
  | [], lastIndex =>
      if lastIndex < text.length then
        [Node.text (sliceStr text lastIndex text.length)]
      else []
  | (idx, name) :: ms, lastIndex =>
      (if lastIndex < idx then [Node.text (sliceStr text lastIndex idx)] else []) ++
        render name ++ expandFrom render text ms (idx + (4 + name.length))

/-- The fragment built for one candidate text node by
`parseAndLoadComponents` (step 4), given the per-name rendering. -/
def expandTextNode (render : Str → List Node) (text : Str) : List Node :=
  expandFrom render text (useMatches text 0) 0

/-- The insertion performed for one `use:Name` occurrence by the code: a
missing module (`null` in `moduleCache`) or empty fetched text (both falsy)
insert nothing; otherwise the fetched HTML is parsed
(`tempDiv.innerHTML = htmlContent`) and every parsed child is processed by
`createNodeWithExecutableScripts`. -/
def moduleRender (parse : Str → List Node) (cache : Str → Option Str)
    (name : Str) : List Node :=
  match cache name with
  | some h => if h.isEmpty then [] else (parse h).map createNodeWithExecutableScripts
  | none => []

/-- The spec's reading of the insertion: the parsed child nodes of the
fetched content whenever the fetch succeeded, nothing otherwise. -/
def specModuleRender (parse : Str → List Node) (cache : Str → Option Str)
    (name : Str) : List Node :=
  match cache name with
  | some h => (parse h).map createNodeWithExecutableScripts
  | none => []

/-- Render one token: a literal becomes a text node, a command becomes the
rendered module content. -/
def renderTok (render : Str → List Node) : UseTok → List Node
  | .lit s => [Node.text s]
  | .cmd n => render n

theorem useMatches_nil (i : ℕ) : useMatches [] i = [] := by
  rw [useMatches]

theorem useMatches_cons_some {c : Char} {cs : Str} {nr : Str × Str}
    (h : tryUse (c :: cs) = some nr) (i : ℕ) :
    useMatches (c :: cs) i = (i, nr.1) :: useMatches nr.2 (i + (4 + nr.1.length)) := by
  rw [useMatches]
  split
  · rename_i nr' heq
    obtain rfl := Option.some.inj (h.symm.trans heq)
    rfl
  · rename_i heq
    rw [h] at heq
    exact absurd heq (by simp)

theorem useMatches_cons_none {c : Char} {cs : Str}
    (h : tryUse (c :: cs) = none) (i : ℕ) :
    useMatches (c :: cs) i = useMatches cs (i + 1) := by
  rw [useMatches]
  split
  · rename_i nr' heq
    rw [h] at heq
    exact absurd heq (by simp)
  · rfl

theorem scanToks_nil (acc : Str) :
    scanToks acc [] = if acc.isEmpty then [] else [UseTok.lit acc] := by
  rw [scanToks]

theorem scanToks_cons_some {c : Char} {cs : Str} {nr : Str × Str}
    (h : tryUse (c :: cs) = some nr) (acc : Str) :
    scanToks acc (c :: cs) =
      (if acc.isEmpty then [] else [UseTok.lit acc]) ++
        UseTok.cmd nr.1 :: scanToks [] nr.2 := by
  rw [scanToks]
  split
  · rename_i nr' heq
    obtain rfl := Option.some.inj (h.symm.trans heq)
    rfl
  · rename_i heq
    rw [h] at heq
    exact absurd heq (by simp)

theorem scanToks_cons_none {c : Char} {cs : Str}
    (h : tryUse (c :: cs) = none) (acc : Str) :
    scanToks acc (c :: cs) = scanToks (acc ++ [c]) cs := by
  rw [scanToks]
  split
  · rename_i nr' heq
    rw [h] at heq
    exact absurd heq (by simp)
  · rfl

theorem useMatches_shift (s : Str) (i : ℕ) :
    useMatches s i = (useMatches s 0).map (fun p => (p.1 + i, p.2)) := by
  match s with
  | [] => simp [useMatches_nil]
  | c :: cs =>
      cases htu : tryUse (c :: cs) with
      | some nr =>
          rw [useMatches_cons_some htu i, useMatches_cons_some htu 0]
          rw [useMatches_shift nr.2 (i + (4 + nr.1.length)),
            useMatches_shift nr.2 (0 + (4 + nr.1.length))]
          have hcomp :
              ((fun p : ℕ × Str => (p.1 + i, p.2)) ∘
                fun p : ℕ × Str => (p.1 + (0 + (4 + nr.1.length)), p.2)) =
              fun p : ℕ × Str => (p.1 + (i + (4 + nr.1.length)), p.2) := by
            funext p
            simp [Function.comp, Prod.ext_iff]
            omega
          rw [List.map_cons, List.map_map, hcomp]
          simp
      | none =>
          rw [useMatches_cons_none htu i, useMatches_cons_none htu 0]
          rw [useMatches_shift cs (i + 1), useMatches_shift cs (0 + 1)]
          have hcomp :
              ((fun p : ℕ × Str => (p.1 + i, p.2)) ∘
                fun p : ℕ × Str => (p.1 + (0 + 1), p.2)) =
              fun p : ℕ × Str => (p.1 + (i + 1), p.2) := by
            funext p
            simp [Function.comp, Prod.ext_iff]
            omega
          rw [List.map_map, hcomp]
termination_by s.length
decreasing_by
  all_goals first
    | (simpa using tryUse_rest_lt htu)
    | simp

theorem sliceStr_length (t : Str) (a b : ℕ) (hb : b ≤ t.length) :
    (sliceStr t a b).length = b - a := by
  simp only [sliceStr, List.length_take, List.length_drop]
  omega

theorem sliceStr_self (t : Str) (a : ℕ) : sliceStr t a a = [] := by
  simp [sliceStr]

theorem sliceStr_extend {t : Str} {k : ℕ} {c : Char} {cs : Str}
    (hd : t.drop k = c :: cs) (j : ℕ) (hj : j ≤ k) :
    sliceStr t j k ++ [c] = sliceStr t j (k + 1) := by
  have hk1 : k + 1 - j = (k - j) + 1 := by omega
  have hget : (t.drop j)[k - j]? = some c := by
    rw [List.getElem?_drop]
    have hjk : j + (k - j) = k := by omega
    rw [hjk]
    have h0 : t[k]? = (t.drop k)[0]? := by
      rw [List.getElem?_drop, Nat.add_zero]
    rw [h0, hd]
    simp
  rw [sliceStr, sliceStr, hk1, List.take_succ, hget]
  rfl

theorem scanToks_join (s : Str) : ∀ acc : Str,
    (scanToks acc s).flatMap tokText = acc ++ s := by
  match s with
  | [] =>
      intro acc
      rw [scanToks_nil]
      by_cases h : acc.isEmpty
      · rw [List.isEmpty_iff] at h
        simp [h]
      · simp [h, tokText]
  | c :: cs =>
      intro acc
      cases htu : tryUse (c :: cs) with
      | some nr =>
          obtain ⟨n, r⟩ := nr
          obtain ⟨hs, -, -⟩ := tryUse_eq_some htu
          rw [scanToks_cons_some htu]
          rw [List.flatMap_append, List.flatMap_cons, scanToks_join r []]
          simp only [List.nil_append]
          by_cases h : acc.isEmpty
          · rw [List.isEmpty_iff] at h
            simp [h, tokText, hs]
          · simp [h, tokText, hs]
      | none =>
          rw [scanToks_cons_none htu, scanToks_join cs (acc ++ [c])]
          simp
termination_by s.length
decreasing_by
  all_goals first
    | (simpa using tryUse_rest_lt htu)
    | simp

theorem scanToks_cmd_props (s : Str) : ∀ (acc n : Str),
    UseTok.cmd n ∈ scanToks acc s →
      n ≠ [] ∧ ∀ c ∈ n, isSpaceChar c = false := by
  match s with
  | [] =>
      intro acc n h
      rw [scanToks_nil] at h
      by_cases hacc : acc.isEmpty <;> simp [hacc] at h
  | c :: cs =>
      intro acc n h
      cases htu : tryUse (c :: cs) with
      | some nr =>
          obtain ⟨nm, r⟩ := nr
          obtain ⟨-, hn, hsp⟩ := tryUse_eq_some htu
          rw [scanToks_cons_some htu] at h
          rcases List.mem_append.mp h with h1 | h2
          · by_cases hacc : acc.isEmpty <;> simp [hacc] at h1
          · rcases List.mem_cons.mp h2 with heq | h3
            · obtain rfl : n = nm := by
                injection heq
              exact ⟨hn, hsp⟩
            · exact scanToks_cmd_props r [] n h3
      | none =>
          rw [scanToks_cons_none htu] at h
          exact scanToks_cmd_props cs (acc ++ [c]) n h
termination_by s.length
decreasing_by
  all_goals first
    | (simpa using tryUse_rest_lt htu)
    | simp

theorem expandFrom_eq_flatMap (render : Str → List Node) (t : Str) (s : Str) :
    ∀ (k j : ℕ), t.drop k = s → j ≤ k → k ≤ t.length →
      expandFrom render t ((useMatches s 0).map (fun p => (p.1 + k, p.2))) j =
        (scanToks (sliceStr t j k) s).flatMap (renderTok render) := by
  match s with
  | [] =>
      intro k j hdrop hjk hkt
      have hklen : k = t.length := by
        have hlen := congrArg List.length hdrop
        simp at hlen
        omega
      subst hklen
      rw [useMatches_nil, List.map_nil, scanToks_nil]
      by_cases hj : j < t.length
      · have hne : ¬ (sliceStr t j t.length).isEmpty = true := by
          rw [List.isEmpty_iff, ← List.length_eq_zero]
          rw [sliceStr_length t j t.length le_rfl]
          omega
        simp [expandFrom, hj, hne, renderTok]
      · have hemp : (sliceStr t j t.length).isEmpty = true := by
          rw [List.isEmpty_iff, ← List.length_eq_zero]
          rw [sliceStr_length t j t.length le_rfl]
          omega
        simp [expandFrom, hj, hemp]
  | c :: cs =>
      intro k j hdrop hjk hkt
      have hklt : k < t.length := by
        have hlen := congrArg List.length hdrop
        simp at hlen
        omega
      cases htu : tryUse (c :: cs) with
      | some nr =>
          obtain ⟨nm, r⟩ := nr
          obtain ⟨hs, hn, -⟩ := tryUse_eq_some htu
          have hslen : cs.length + 1 = 4 + (nm.length + r.length) := by
            have := congrArg List.length hs
            simp [useTagStr, str] at this
            omega
          have hdroplen : t.length - k = cs.length + 1 := by
            have := congrArg List.length hdrop
            simpa using this
          rw [useMatches_cons_some htu 0]
          rw [useMatches_shift r (0 + (4 + nm.length))]
          rw [List.map_cons, List.map_map]
          have hcomp : ((fun p : ℕ × Str => (p.1 + k, p.2)) ∘
              fun p : ℕ × Str => (p.1 + (0 + (4 + nm.length)), p.2)) =
              fun p : ℕ × Str => (p.1 + (k + (4 + nm.length)), p.2) := by
            funext p
            simp [Function.comp, Prod.ext_iff]
            omega
          rw [hcomp]
          have hdrop' : t.drop (k + (4 + nm.length)) = r := by
            have h1 : (t.drop k).drop (4 + nm.length) = t.drop (k + (4 + nm.length)) := by
              rw [List.drop_drop, Nat.add_comm]
            rw [← h1, hdrop, hs]
            have h3 : (useTagStr ++ nm).length = 4 + nm.length := by
              simp [useTagStr, str]
              omega
            rw [← h3, List.drop_left]
          have hk'le : k + (4 + nm.length) ≤ t.length := by omega
          have hih := expandFrom_eq_flatMap render t r (k + (4 + nm.length))
            (k + (4 + nm.length)) hdrop' le_rfl hk'le
          rw [sliceStr_self] at hih
          simp only [expandFrom, Nat.zero_add]
          rw [hih]
          rw [scanToks_cons_some htu (sliceStr t j k)]
          rw [List.flatMap_append, List.flatMap_cons]
          by_cases hjk2 : j < k
          · have hne : ¬ (sliceStr t j k).isEmpty = true := by
              rw [List.isEmpty_iff, ← List.length_eq_zero]
              rw [sliceStr_length t j k (by omega)]
              omega
            simp [hjk2, hne, renderTok]
          · have hemp : (sliceStr t j k).isEmpty = true := by
              rw [List.isEmpty_iff, ← List.length_eq_zero]
              rw [sliceStr_length t j k (by omega)]
              omega
            simp [hjk2, hemp, renderTok]
      | none =>
          rw [useMatches_cons_none htu 0]
          rw [useMatches_shift cs (0 + 1), List.map_map]
          have hcomp : ((fun p : ℕ × Str => (p.1 + k, p.2)) ∘
              fun p : ℕ × Str => (p.1 + (0 + 1), p.2)) =
              fun p : ℕ × Str => (p.1 + (k + 1), p.2) := by
            funext p
            simp [Function.comp, Prod.ext_iff]
            omega
          rw [hcomp]
          have hdrop' : t.drop (k + 1) = cs := by
            have h1 : (t.drop k).drop 1 = t.drop (k + 1) := by
              rw [List.drop_drop, Nat.add_comm]
            rw [← h1, hdrop]
            simp
          rw [scanToks_cons_none htu]
          rw [sliceStr_extend hdrop j hjk]
          exact expandFrom_eq_flatMap render t cs (k + 1) j hdrop' (by omega) (by omega)
termination_by s.length
decreasing_by
  all_goals first
    | (simpa using tryUse_rest_lt htu)
    | simp

theorem moduleRender_eq_specModuleRender (parse : Str → List Node)
    (cache : Str → Option Str) (hp : parse [] = []) (name : Str) :
    moduleRender parse cache name = specModuleRender parse cache name := by
  unfold moduleRender specModuleRender
  cases hc : cache name with
  | none => rfl
  | some h =>
      by_cases hh : h.isEmpty
      · rw [List.isEmpty_iff] at hh
        subst hh
        simp [hp]
      · simp [hh]

/-- **C1.** For every text node whose value contains `use:Name` tokens
(`Name` a maximal run of non-whitespace characters), the step-4 loop of
`parseAndLoadComponents` builds a fragment equal to the token
decomposition of the value rendered token by token — each `use:Name` token
becomes the parsed child nodes of the fetched `modules/Name.html` content
when the fetch succeeded (processed by `createNodeWithExecutableScripts`),
and each literal stretch before, between and after the tokens is kept
unchanged, in order, as a text node; the token decomposition concatenates
back to the original value, and every captured name is a nonempty run of
non-whitespace characters. -/
theorem parse_expands_and_preserves_text (parse : Str → List Node)
    (cache : Str → Option Str) (text : Str) (hp : parse [] = []) :
    expandTextNode (moduleRender parse cache) text =
        (useToks text).flatMap (renderTok (specModuleRender parse cache)) ∧
      (useToks text).flatMap tokText = text ∧
      ∀ n, UseTok.cmd n ∈ useToks text →
        n ≠ [] ∧ ∀ c ∈ n, isSpaceChar c = false := by
  refine ⟨?_, ?_, ?_⟩
  · have hmap : (useMatches text 0).map (fun p : ℕ × Str => (p.1 + 0, p.2)) =
        useMatches text 0 := by
      simp
    have h := expandFrom_eq_flatMap (moduleRender parse cache) text text 0 0
      (by simp) le_rfl (by simp)
    rw [hmap, sliceStr_self] at h
    have hren : renderTok (moduleRender parse cache) =
        renderTok (specModuleRender parse cache) := by
      funext tok
      cases tok with
      | lit s => rfl
      | cmd n => simp [renderTok, moduleRender_eq_specModuleRender parse cache hp n]
    rw [expandTextNode, useToks, h, hren]
  · simpa using scanToks_join text []
  · intro n hmem
    exact scanToks_cmd_props text [] n hmem

/-- Witness for C1: concrete parse/cache functions and the text
`"go use:A end"`; the expansion equals the rendered token decomposition,
the decomposition concatenates back to the text, and the captured names
are nonempty and whitespace-free. -/
theorem parse_expands_and_preserves_text_witness :
    ((fun h : Str => if h.isEmpty then [] else [Node.text h]) [] = ([] : List Node)) ∧
      expandTextNode
          (moduleRender (fun h : Str => if h.isEmpty then [] else [Node.text h])
            (fun n => if n = str "A" then some (str "x") else none))
          (str "go use:A end") =
        (useToks (str "go use:A end")).flatMap
          (renderTok (specModuleRender
            (fun h : Str => if h.isEmpty then [] else [Node.text h])
            (fun n => if n = str "A" then some (str "x") else none))) ∧
      (useToks (str "go use:A end")).flatMap tokText = str "go use:A end" :=
  ⟨rfl,
   (parse_expands_and_preserves_text
      (fun h : Str => if h.isEmpty then [] else [Node.text h])
      (fun n => if n = str "A" then some (str "x") else none)
      (str "go use:A end") rfl).1,
   (parse_expands_and_preserves_text
      (fun h : Str => if h.isEmpty then [] else [Node.text h])
      (fun n => if n = str "A" then some (str "x") else none)
      (str "go use:A end") rfl).2.1⟩

/-! ## `parseAndLoadComponents` — name collection, fetching, error handling

```js
const componentNames = new Set();
textNodes.forEach(node => {
    const matches = [...node.nodeValue.matchAll(USE_REGEX)];
    matches.forEach(match => componentNames.add(match[1]));
});
const moduleCache = {};
await Promise.all([...componentNames].map(async (name) => {
    try {
        const response = await fetch(`${MODULE_DIR}${name}${MODULE_EXT}`);
        if (response.ok) {
            moduleCache[name] = await response.text();
        } else {
            console.warn(`[Component Loader] Module not found: ${name} (Ignored)`);
            moduleCache[name] = null;
        }
    } catch (err) {
        console.warn(`[Component Loader] Failed to fetch ${name}`, err);
        moduleCache[name] = null;
    }
}));
```
-/

/-- `'use:'` occurs in the string (`node.nodeValue.includes('use:')`). -/
def containsUse (s : Str) : Bool := decide (useTagStr <:+: s)

mutual

/-- The tree walk of `collectCandidateNodes`: the values of the text nodes
under the given node, in document order, keeping those containing `use:`. -/
def collectTextValues : Node → List Str
  | .text s => if containsUse s then [s] else []
  | .comment _ => []
  | .elem _ _ cs => collectTextValuesList cs

/-- `collectTextValues` over a sibling list. -/
def collectTextValuesList : List Node → List Str
  | [] => []
  | c :: cs => collectTextValues c ++ collectTextValuesList cs

end

/-- The component names captured by `matchAll(USE_REGEX)` over one text
value, in match order. -/
def matchNames (t : Str) : List Str := (useMatches t 0).map Prod.snd

/-- `Set.prototype.add`: a JS `Set` keeps insertion order and ignores an
element it already holds. -/
def addName (l : List Str) (n : Str) : List Str :=
  if n ∈ l then l else l ++ [n]

/-- Step 2 of `parseAndLoadComponents`: all distinct component names of
the candidate text values, in first-occurrence order. -/
def collectComponentNames (texts : List Str) : List Str :=
  texts.foldl (fun acc t => (matchNames t).foldl addName acc) []

/-- Outcome of `fetch` on one URL: a rejected promise (network error), or
a response carrying an HTTP status and a body text. -/
inductive FetchOutcome where
  | netErr : Str → FetchOutcome
  | response : ℕ → Str → FetchOutcome
deriving DecidableEq

/-- `response.ok`: the status lies in the 200–299 range. -/
def respOk (status : ℕ) : Bool := 200 ≤ status && status ≤ 299

/-- A console entry emitted by the loader. -/
inductive LogEntry where
  | warnMissing : Str → LogEntry
  | warnFailed : Str → LogEntry
  | criticalError : LogEntry
deriving DecidableEq

/-- The fetch URL of a component module: the module directory, the name,
and the `.html` extension (`assets` uses `modules/`, `public` uses
`/modules/`). -/
def moduleUrl (dir : Str) (name : Str) : Str := dir ++ name ++ str ".html"

/-- The module directory of `assets/js/component_loader.js`. -/
def assetsModuleDir : Str := str "modules/"

/-- The module directory of `public/js/component_loader.js`. -/
def pubModuleDir : Str := str "/modules/"

/-- The step-3 per-name fetch with its own try/catch: a thrown fetch error
is caught and logged (`null` cache entry); a non-ok response is logged
(`null` cache entry); an ok response caches the body text. -/
def fetchComponent (w : Str → FetchOutcome) (name : Str) :
    Option Str × List LogEntry :=
  match w (moduleUrl assetsModuleDir name) with
  | .response status body =>
      if respOk status then (some body, [])
      else (none, [LogEntry.warnMissing name])
  | .netErr _ => (none, [LogEntry.warnFailed name])

/-- Step 3 over the collected names: the module cache, the warning log and
the trace of fetched URLs — one fetch per name, in order, no retry. -/
def buildModuleCache (w : Str → FetchOutcome) :
    List Str → (Str → Option Str) × List LogEntry × List Str
  | [] => (fun _ => none, [], [])
  | n :: ns =>
      let r := fetchComponent w n
      let rest := buildModuleCache w ns
      (fun m => if m = n then r.1 else rest.1 m,
       r.2 ++ rest.2.1,
       moduleUrl assetsModuleDir n :: rest.2.2)

/-- The observable result of one `parseAndLoadComponents` run. -/
structure LoaderRun where
  cache : Str → Option Str
  logs : List LogEntry
  fetches : List Str
  critical : Bool

/-- The body of the outer `try`: collect the candidate text values and the
distinct names, then fetch and cache each module.  Every fetch rejection
is already absorbed by the per-name catch inside `buildModuleCache`, so
this inner computation never throws. -/
def parseAndLoadInner (w : Str → FetchOutcome) (body : Node) :
    Except Str ((Str → Option Str) × List LogEntry × List Str) :=
  let names := collectComponentNames (collectTextValues body)
  Except.ok (buildModuleCache w names)

/-- `parseAndLoadComponents` at the fetch/log level, with the outer
`try/catch`: an exception escaping the inner computation would be logged
as a critical error; a normal completion reports the cache, warnings and
fetch trace. -/
def parseAndLoadComponents (w : Str → FetchOutcome) (body : Node) : LoaderRun :=
  match parseAndLoadInner w body with
  | .ok r => ⟨r.1, r.2.1, r.2.2, false⟩
  | .error _ => ⟨fun _ => none, [LogEntry.criticalError], [], true⟩

theorem buildModuleCache_lookup (w : Str → FetchOutcome) :
    ∀ (ns : List Str) (name : Str), name ∈ ns →
      (buildModuleCache w ns).1 name = (fetchComponent w name).1 ∧
        ∀ e ∈ (fetchComponent w name).2, e ∈ (buildModuleCache w ns).2.1 := by
  intro ns
  induction ns with
  | nil => intro name h; simp at h
  | cons n ns ih =>
      intro name h
      by_cases hn : name = n
      · subst hn
        constructor
        · simp [buildModuleCache]
        · intro e he
          simp [buildModuleCache]
          exact Or.inl he
      · have hmem : name ∈ ns := by
          rcases List.mem_cons.mp h with h1 | h1
          · exact absurd h1 hn
          · exact h1
        obtain ⟨h1, h2⟩ := ih name hmem
        constructor
        · simp [buildModuleCache, hn, h1]
        · intro e he
          simp [buildModuleCache]
          exact Or.inr (h2 e he)

theorem buildModuleCache_fetches (w : Str → FetchOutcome) :
    ∀ ns : List Str,
      (buildModuleCache w ns).2.2 = ns.map (moduleUrl assetsModuleDir) := by
  intro ns
  induction ns with
  | nil => simp [buildModuleCache]
  | cons n ns ih => simp [buildModuleCache, ih]

theorem addName_mem (l : List Str) (n m : Str) :
    m ∈ addName l n ↔ m ∈ l ∨ m = n := by
  unfold addName
  by_cases hn : n ∈ l
  · simp only [if_pos hn]
    constructor
    · exact Or.inl
    · rintro (h | rfl)
      · exact h
      · exact hn
  · simp [if_neg hn]

theorem addName_nodup (l : List Str) (n : Str) (h : l.Nodup) :
    (addName l n).Nodup := by
  unfold addName
  by_cases hn : n ∈ l
  · simpa [if_pos hn]
  · rw [if_neg hn]
    rw [List.nodup_append]
    exact ⟨h, List.nodup_singleton n, by simpa [List.disjoint_singleton]⟩

theorem foldl_addName_nodup (ms : List Str) :
    ∀ acc : List Str, acc.Nodup → (ms.foldl addName acc).Nodup := by
  induction ms with
  | nil => intro acc h; simpa
  | cons m ms ih =>
      intro acc h
      simp only [List.foldl_cons]
      exact ih (addName acc m) (addName_nodup acc m h)

theorem foldl_addName_mem (ms : List Str) :
    ∀ (acc : List Str) (n : Str),
      n ∈ ms.foldl addName acc ↔ n ∈ acc ∨ n ∈ ms := by
  induction ms with
  | nil => intro acc n; simp
  | cons m ms ih =>
      intro acc n
      simp only [List.foldl_cons]
      rw [ih (addName acc m) n, addName_mem]
      constructor
      · rintro ((h | heq) | h)
        · exact Or.inl h
        · rw [heq]
          exact Or.inr (List.mem_cons_self m ms)
        · exact Or.inr (List.mem_cons_of_mem m h)
      · rintro (h | h)
        · exact Or.inl (Or.inl h)
        · rcases List.mem_cons.mp h with rfl | h
          · exact Or.inl (Or.inr rfl)
          · exact Or.inr h

theorem collect_aux_nodup (texts : List Str) :
    ∀ acc : List Str, acc.Nodup →
      (texts.foldl (fun a t => (matchNames t).foldl addName a) acc).Nodup := by
  induction texts with
  | nil => intro acc h; simpa
  | cons t texts ih =>
      intro acc h
      simp only [List.foldl_cons]
      exact ih _ (foldl_addName_nodup (matchNames t) acc h)

theorem collect_aux_mem (texts : List Str) :
    ∀ (acc : List Str) (n : Str),
      n ∈ texts.foldl (fun a t => (matchNames t).foldl addName a) acc ↔
        n ∈ acc ∨ ∃ t ∈ texts, n ∈ matchNames t := by
  induction texts with
  | nil => intro acc n; simp
  | cons t texts ih =>
      intro acc n
      simp only [List.foldl_cons]
      rw [ih _ n, foldl_addName_mem]
      constructor
      · rintro ((h | h) | ⟨u, hu, hn⟩)
        · exact Or.inl h
        · exact Or.inr ⟨t, List.mem_cons_self t texts, h⟩
        · exact Or.inr ⟨u, List.mem_cons_of_mem t hu, hn⟩
      · rintro (h | ⟨u, hu, hn⟩)
        · exact Or.inl (Or.inl h)
        · rcases List.mem_cons.mp hu with rfl | hu2
          · exact Or.inl (Or.inr hn)
          · exact Or.inr ⟨u, hu2, hn⟩

theorem collectComponentNames_nodup (texts : List Str) :
    (collectComponentNames texts).Nodup :=
  collect_aux_nodup texts [] List.nodup_nil

theorem collectComponentNames_mem (texts : List Str) (n : Str) :
    n ∈ collectComponentNames texts ↔ ∃ t ∈ texts, n ∈ matchNames t := by
  rw [collectComponentNames, collect_aux_mem]
  simp

theorem moduleUrl_inj (dir : Str) {a b : Str}
    (h : moduleUrl dir a = moduleUrl dir b) : a = b := by
  unfold moduleUrl at h
  have h1 : dir ++ a = dir ++ b := List.append_cancel_right h
  exact List.append_cancel_left h1

theorem count_le_one_of_nodup :
    ∀ l : List Str, l.Nodup → ∀ u : Str, l.count u ≤ 1
  | [], _, u => by simp
  | a :: l, h, u => by
      rcases List.nodup_cons.mp h with ⟨ha, hl⟩
      rw [List.count_cons]
      by_cases hua : u = a
      · subst hua
        have h0 : l.count u = 0 := List.count_eq_zero.mpr ha
        simp [h0]
      · have hbeq : (a == u) = false := by
          rw [beq_eq_false_iff_ne]
          exact fun hh => hua hh.symm
        simp only [hbeq, Bool.false_eq_true, if_false, Nat.add_zero]
        exact count_le_one_of_nodup l hl u

/-- **C3.** One run of `parseAndLoadComponents` fetches exactly the URL of
each distinct component name found in the page's candidate text nodes,
once per name (the `Set` deduplicates), in first-occurrence order, with no
retry of failed fetches: the fetch trace is the deduplicated name list
mapped to module URLs, it repeats no URL, and a name is fetched iff it is
matched somewhere in the page.  (Termination on every finite DOM is by
construction: every function of this model, `createNodeWithExecutableScripts`
included, is accepted by Lean's termination checker.) -/
theorem loader_fetches_each_name_once (w : Str → FetchOutcome) (body : Node) :
    (parseAndLoadComponents w body).fetches =
        (collectComponentNames (collectTextValues body)).map
          (moduleUrl assetsModuleDir) ∧
      ((parseAndLoadComponents w body).fetches).Nodup ∧
      (∀ n, n ∈ collectComponentNames (collectTextValues body) ↔
        ∃ t ∈ collectTextValues body, n ∈ matchNames t) ∧
      ∀ u, ((parseAndLoadComponents w body).fetches).count u ≤ 1 := by
  have hfetch : (parseAndLoadComponents w body).fetches =
      (collectComponentNames (collectTextValues body)).map
        (moduleUrl assetsModuleDir) := by
    simp [parseAndLoadComponents, parseAndLoadInner, buildModuleCache_fetches]
  have hnodup : ((parseAndLoadComponents w body).fetches).Nodup := by
    rw [hfetch]
    exact (collectComponentNames_nodup (collectTextValues body)).map
      (fun a b => moduleUrl_inj assetsModuleDir)
  refine ⟨hfetch, hnodup, fun n => collectComponentNames_mem _ n, fun u => ?_⟩
  exact count_le_one_of_nodup _ hnodup u

/-- **C2.** A failed component fetch (network error or non-ok response) is
logged as a console warning and does not disturb the rest of the run:
every name whose fetch succeeded is cached with its body regardless of the
other outcomes, every failed name is cached as `null` with a warning in
the log, and the outer catch guarantees the run completes without an
escaping exception (no critical error is reported). -/
theorem loader_failures_warn_and_continue (w : Str → FetchOutcome)
    (names : List Str) :
    (∀ name, name ∈ names →
      (∀ e, w (moduleUrl assetsModuleDir name) = .netErr e →
          (buildModuleCache w names).1 name = none ∧
          LogEntry.warnFailed name ∈ (buildModuleCache w names).2.1) ∧
      (∀ status btext, w (moduleUrl assetsModuleDir name) = .response status btext →
          respOk status = false →
          (buildModuleCache w names).1 name = none ∧
          LogEntry.warnMissing name ∈ (buildModuleCache w names).2.1) ∧
      (∀ status btext, w (moduleUrl assetsModuleDir name) = .response status btext →
          respOk status = true →
          (buildModuleCache w names).1 name = some btext)) ∧
    ∀ body : Node,
      (parseAndLoadComponents w body).cache =
          (buildModuleCache w (collectComponentNames (collectTextValues body))).1 ∧
        (parseAndLoadComponents w body).logs =
          (buildModuleCache w (collectComponentNames (collectTextValues body))).2.1 ∧
        (parseAndLoadComponents w body).critical = false := by
  constructor
  · intro name hmem
    obtain ⟨hcache, hlog⟩ := buildModuleCache_lookup w names name hmem
    refine ⟨fun e he => ?_, fun status btext hr hok => ?_,
      fun status btext hr hok => ?_⟩
    · constructor
      · rw [hcache]
        simp [fetchComponent, he]
      · exact hlog _ (by simp [fetchComponent, he])
    · constructor
      · rw [hcache]
        simp [fetchComponent, hr, hok]
      · exact hlog _ (by simp [fetchComponent, hr, hok])
    · rw [hcache]
      simp [fetchComponent, hr, hok]
  · intro body
    have hrun : parseAndLoadComponents w body =
        ⟨(buildModuleCache w (collectComponentNames (collectTextValues body))).1,
         (buildModuleCache w (collectComponentNames (collectTextValues body))).2.1,
         (buildModuleCache w (collectComponentNames (collectTextValues body))).2.2,
         false⟩ := by
      simp [parseAndLoadComponents, parseAndLoadInner]
    rw [hrun]
    exact ⟨rfl, rfl, rfl⟩

/-- Witness for C2: with names `A`, `B`, a world answering `404` for
`modules/A.html` and `200` with body `ok` for everything else, the run
caches `A` as missing with a warning and still caches `B` with its body. -/
theorem loader_failures_warn_and_continue_witness :
    ((str "A") ∈ [str "A", str "B"] ∧
      (buildModuleCache
        (fun u => if u = moduleUrl assetsModuleDir (str "A") then
          FetchOutcome.response 404 (str "") else FetchOutcome.response 200 (str "ok"))
        [str "A", str "B"]).1 (str "A") = none ∧
      LogEntry.warnMissing (str "A") ∈
        (buildModuleCache
          (fun u => if u = moduleUrl assetsModuleDir (str "A") then
            FetchOutcome.response 404 (str "") else FetchOutcome.response 200 (str "ok"))
          [str "A", str "B"]).2.1) ∧
      (buildModuleCache
        (fun u => if u = moduleUrl assetsModuleDir (str "A") then
          FetchOutcome.response 404 (str "") else FetchOutcome.response 200 (str "ok"))
        [str "A", str "B"]).1 (str "B") = some (str "ok") := by
  have h := loader_failures_warn_and_continue
    (fun u => if u = moduleUrl assetsModuleDir (str "A") then
      FetchOutcome.response 404 (str "") else FetchOutcome.response 200 (str "ok"))
    [str "A", str "B"]
  have hA := (h.1 (str "A") (by decide)).2.1 404 (str "") (by decide) (by decide)
  have hB := (h.1 (str "B") (by decide)).2.2 200 (str "ok") (by decide) (by decide)
  exact ⟨⟨by decide, hA.1, hA.2⟩, hB⟩

/-! ## The URLs the scripts fetch (all fetch sites of the repository)

* `assets/js/component_loader.js`: `fetch(`${MODULE_DIR}${name}${MODULE_EXT}`)`
  with `MODULE_DIR = 'modules/'`, `MODULE_EXT = '.html'`;
* `public/js/component_loader.js`: the same with `MODULE_DIR = '/modules/'`;
* `assets/js/gallery_loader.js`: `fetch('modules/gallery_cardcarousel.html')`
  and `fetch('modules/gallery.json')`;
* `public/js/gallery_loader.js`: `fetch('modules/gallery.json')`;
* the unnamed gallery loader: `fetch('/modules/gallery.json')`.
-/

/-- The two URLs fetched by `assets/js/gallery_loader.js`, in code order. -/
def assetsGalleryUrls : List Str :=
  [str "modules/gallery_cardcarousel.html", str "modules/gallery.json"]

/-- The URL fetched by `public/js/gallery_loader.js`. -/
def pubGalleryUrls : List Str := [str "modules/gallery.json"]

/-- The URL fetched by the unnamed gallery loader. -/
def unnamedGalleryUrls : List Str := [galleryJsonUrl]

/-- Every URL the repository's scripts can request, for the component
names collected on the assets page and on the public page. -/
def allFetchUrls (assetsNames pubNames : List Str) : List Str :=
  assetsNames.map (moduleUrl assetsModuleDir) ++
    pubNames.map (moduleUrl pubModuleDir) ++
    assetsGalleryUrls ++ pubGalleryUrls ++ unnamedGalleryUrls

/-- **C6.** Every network request the scripts issue targets a static file
under the modules directory with extension `.html` or `.json`: the fetched
URL starts with `modules/` or `/modules/` — component modules being the
module directory plus the name plus `.html`, gallery data being
`modules/gallery.json` (plus `modules/gallery_cardcarousel.html` in the
assets gallery loader) — and ends with `.html` or `.json`; no other URL is
ever fetched. -/
theorem fetch_urls_under_modules (assetsNames pubNames : List Str) :
    ∀ u ∈ allFetchUrls assetsNames pubNames,
      (str "modules/" <+: u ∨ str "/modules/" <+: u) ∧
        (str ".html" <:+ u ∨ str ".json" <:+ u) := by
  intro u hu
  unfold allFetchUrls at hu
  rw [List.append_assoc, List.append_assoc, List.append_assoc] at hu
  rcases List.mem_append.mp hu with h1 | hrest
  · obtain ⟨n, -, rfl⟩ := List.mem_map.mp h1
    constructor
    · left
      exact ⟨n ++ str ".html", by simp [moduleUrl, assetsModuleDir]⟩
    · left
      exact ⟨assetsModuleDir ++ n, by simp [moduleUrl]⟩
  · rcases List.mem_append.mp hrest with h2 | hrest2
    · obtain ⟨n, -, rfl⟩ := List.mem_map.mp h2
      constructor
      · right
        exact ⟨n ++ str ".html", by simp [moduleUrl, pubModuleDir]⟩
      · left
        exact ⟨pubModuleDir ++ n, by simp [moduleUrl]⟩
    · rcases List.mem_append.mp hrest2 with h3 | hrest3
      · rcases List.mem_cons.mp h3 with rfl | h4
        · exact ⟨Or.inl (by decide), Or.inl (by decide)⟩
        · rcases List.mem_cons.mp h4 with rfl | h5
          · exact ⟨Or.inl (by decide), Or.inr (by decide)⟩
          · simp at h5
      · rcases List.mem_append.mp hrest3 with h4 | h5
        · rcases List.mem_cons.mp h4 with rfl | h6
          · exact ⟨Or.inl (by decide), Or.inr (by decide)⟩
          · simp at h6
        · rcases List.mem_cons.mp h5 with rfl | h6
          · exact ⟨Or.inr (by decide), Or.inr (by decide)⟩
          · simp at h6

/-- Witness for C6: the concrete URL fetched for component `Hero` on the
assets page is under `modules/` and ends in `.html`. -/
theorem fetch_urls_under_modules_witness :
    (str "modules/Hero.html") ∈ allFetchUrls [str "Hero"] [] ∧
      ((str "modules/" <+: str "modules/Hero.html" ∨
          str "/modules/" <+: str "modules/Hero.html") ∧
        (str ".html" <:+ str "modules/Hero.html" ∨
          str ".json" <:+ str "modules/Hero.html")) := by
  have hmem : (str "modules/Hero.html") ∈ allFetchUrls [str "Hero"] [] := by
    unfold allFetchUrls moduleUrl assetsModuleDir
    decide
  exact ⟨hmem, fetch_urls_under_modules [str "Hero"] [] _ hmem⟩

/-! ## `{{KEY}}` placeholder resolution (public component loader)

```js
// Resolve placeholders from parent's data- attributes
const parent = node.parentElement;
if (htmlContent && parent) {
    for (const attr of parent.attributes) {
        if (attr.name.startsWith('data-')) {
            const key = attr.name.slice(5).toUpperCase();
            const val = attr.value;
            htmlContent = htmlContent.replace(new RegExp(`{{${key}}}`, 'g'), val);
        }
    }
}
// ... and for element commands, the same loop over entry.element.attributes
```

`new RegExp` receives the key verbatim, so the key text is interpreted as
regex source, and the attribute value is a replacement string in which `$`
is special.  The model implements the replacement as a literal-string
replacement; that reading coincides with the program exactly when the
constructed pattern denotes the literal string `{{KEY}}` and the value is
`$`-free.  The theorems below therefore restrict the keys they speak
about to `regexPlainKey` — characters that are never special in JS regex
source and, being non-digits and non-braces, cannot combine with the
`{{`/`}}` delimiters into a quantifier such as `{2}` — and the values to
`$`-free strings.  A key with a metacharacter (`data-a.b`, key `A.B`,
pattern `/{{A.B}}/`) makes the program match non-literal strings such as
`{{AXB}}`; such keys are outside the scope of the positive theorem. -/

/-- One pass of JS `String.prototype.replace` with a global pattern whose
regex source denotes the literal string `p` and a `$`-free replacement
`v`, driven by explicit fuel (one unit per scanned position, so
`s.length` fuel always suffices): replace each leftmost, non-overlapping
occurrence of `p` by `v` and continue scanning after the inserted
replacement. -/
def replaceAllFuel (p v : Str) : ℕ → Str → Str
  | 0, s => s
  | _ + 1, [] => []
  | fuel + 1, c :: cs =>
      if p.isPrefixOf (c :: cs) ∧ p ≠ [] then
        v ++ replaceAllFuel p v fuel ((c :: cs).drop p.length)
      else
        c :: replaceAllFuel p v fuel cs

/-- JS `s.replace(new RegExp(pattern, 'g'), v)` in the regime where the
pattern source denotes the literal string `p` and `v` contains no `$`. -/
def replaceAllL (p v s : Str) : Str := replaceAllFuel p v s.length s

theorem replaceAllFuel_congr (p v : Str) :
    ∀ (f1 f2 : ℕ) (s : Str), s.length ≤ f1 → s.length ≤ f2 →
      replaceAllFuel p v f1 s = replaceAllFuel p v f2 s
  | 0, 0, s, _, _ => rfl
  | 0, _ + 1, s, h1, _ => by
      have : s = [] := List.length_eq_zero.mp (Nat.le_zero.mp h1)
      subst this
      rfl
  | _ + 1, 0, s, _, h2 => by
      have : s = [] := List.length_eq_zero.mp (Nat.le_zero.mp h2)
      subst this
      rfl
  | _ + 1, _ + 1, [], _, _ => rfl
  | f1 + 1, f2 + 1, c :: cs, h1, h2 => by
      simp only [replaceAllFuel]
      by_cases hp : p.isPrefixOf (c :: cs) ∧ p ≠ []
      · rw [if_pos hp, if_pos hp]
        have hplen : 1 ≤ p.length := by
          rcases p with _ | ⟨d, ds⟩
          · exact absurd rfl hp.2
          · simp
        have hd : ((c :: cs).drop p.length).length ≤ f1 := by
          simp only [List.length_drop, List.length_cons]
          simp only [List.length_cons] at h1
          omega
        have hd2 : ((c :: cs).drop p.length).length ≤ f2 := by
          simp only [List.length_drop, List.length_cons]
          simp only [List.length_cons] at h2
          omega
        rw [replaceAllFuel_congr p v f1 f2 _ hd hd2]
      · rw [if_neg hp, if_neg hp]
        have hc1 : cs.length ≤ f1 := by
          simp only [List.length_cons] at h1
          omega
        have hc2 : cs.length ≤ f2 := by
          simp only [List.length_cons] at h2
          omega
        rw [replaceAllFuel_congr p v f1 f2 cs hc1 hc2]

theorem replaceAllL_nil (p v : Str) : replaceAllL p v [] = [] := rfl

theorem replaceAllL_cons_pos {p : Str} (v : Str) {c : Char} {cs : Str}
    (h : p.isPrefixOf (c :: cs) ∧ p ≠ []) :
    replaceAllL p v (c :: cs) = v ++ replaceAllL p v ((c :: cs).drop p.length) := by
  unfold replaceAllL
  simp only [List.length_cons, replaceAllFuel, if_pos h]
  congr 1
  have hplen : 0 < p.length := List.length_pos.mpr h.2
  apply replaceAllFuel_congr
  · simp only [List.length_drop, List.length_cons]
    omega
  · exact le_rfl

theorem replaceAllL_cons_neg {p : Str} (v : Str) {c : Char} {cs : Str}
    (h : ¬ (p.isPrefixOf (c :: cs) ∧ p ≠ [])) :
    replaceAllL p v (c :: cs) = c :: replaceAllL p v cs := by
  unfold replaceAllL
  simp only [List.length_cons, replaceAllFuel, if_neg h]

/-- The key of a `data-*` attribute: the attribute name with the `data-`
prefix removed and the remainder uppercased
(`attr.name.slice(5).toUpperCase()`). -/
def dataKey (name : Str) : Str := (name.drop 5).map Char.toUpper

/-- The literal string the constructed regex matches for a key without
regex metacharacters: `{{` ++ KEY ++ `}}`. -/
def placeholderOf (k : Str) : Str := lb :: lb :: (k ++ [rb, rb])

/-- `attr.name.startsWith('data-')`. -/
def isDataAttr (name : Str) : Bool := (str "data-").isPrefixOf name

/-- Placeholder resolution before injection: for each `data-*` attribute
of the host element, in attribute order, globally replace `{{KEY}}` in the
module HTML by the attribute's value.  The replacement is the
literal-string reading of the code's `new RegExp('{{'+key+'}}','g')`; it
agrees with the program whenever the key is `regexPlainKey` and the value
is `$`-free, the regime to which the positive theorem below restricts
itself. -/
def resolveHostPlaceholders (attrs : List (Str × Str)) (html : Str) : Str :=
  attrs.foldl
    (fun h kv =>
      if isDataAttr kv.1 then replaceAllL (placeholderOf (dataKey kv.1)) kv.2 h
      else h)
    html

/-- The module HTML used for a text command in the public loader: resolved
against the attributes of the text node's parent element (no resolution
when the node has no parent element). -/
def textCommandHtml (parentAttrs : Option (List (Str × Str))) (html : Str) : Str :=
  match parentAttrs with
  | some a => resolveHostPlaceholders a html
  | none => html

/-- The module HTML used for an element command (`use:Name` attribute) in
the public loader: resolved against the element's own attributes. -/
def attrCommandHtml (ownAttrs : List (Str × Str)) (html : Str) : Str :=
  resolveHostPlaceholders ownAttrs html

/-- A key fit for literal matching: nonempty and brace-free. -/
def okKey (k : Str) : Prop := k ≠ [] ∧ ∀ c ∈ k, c ≠ lb ∧ c ≠ rb

/-- A character that is never special in JS regex source and — being
neither a digit, a comma nor a brace — cannot combine with the `{{`/`}}`
delimiters of the constructed pattern into a quantifier: an ASCII
uppercase letter, a hyphen (literal outside character classes) or an
underscore. -/
def regexPlainChar (c : Char) : Bool :=
  ('A' ≤ c && c ≤ 'Z') || c = '-' || c = '_'

/-- A key for which the code's `new RegExp('{{'+key+'}}','g')` denotes the
literal string `{{key}}`: nonempty and made of `regexPlainChar`s. -/
@[reducible]
def regexPlainKey (k : Str) : Prop :=
  k ≠ [] ∧ ∀ c ∈ k, regexPlainChar c = true

theorem regexPlainKey_okKey {k : Str} (h : regexPlainKey k) : okKey k := by
  refine ⟨h.1, fun c hc => ?_⟩
  have hpc := h.2 c hc
  constructor
  · intro hceq
    rw [hceq] at hpc
    exact absurd hpc (by decide)
  · intro hceq
    rw [hceq] at hpc
    exact absurd hpc (by decide)

theorem prefix_of_prefix_le {l₁ l₂ l₃ : Str} (h1 : l₁ <+: l₃) (h2 : l₂ <+: l₃)
    (hl : l₁.length ≤ l₂.length) : l₁ <+: l₂ := by
  rw [List.prefix_iff_eq_take] at h2 ⊢
  rw [h2, List.take_take, Nat.min_eq_left hl, ← List.prefix_iff_eq_take]
  exact h1

theorem placeholder_strip {k k' : Str}
    (h : placeholderOf k <+: placeholderOf k') :
    k ++ [rb, rb] <+: k' ++ [rb, rb] := by
  unfold placeholderOf at h
  rw [List.cons_prefix_cons] at h
  rw [List.cons_prefix_cons] at h
  exact h.2.2

theorem placeholder_prefix_aux {k k' : Str} (hk' : okKey k')
    (h : placeholderOf k <+: placeholderOf k') : k = k' := by
  obtain ⟨u, hu⟩ := placeholder_strip h
  have hlen : k.length + 2 + u.length = k'.length + 2 := by
    have := congrArg List.length hu
    simp at this
    omega
  rcases Nat.lt_trichotomy k.length k'.length with hlt | heq | hgt
  · exfalso
    have hu' : k ++ ([rb, rb] ++ u) = k' ++ [rb, rb] := by
      rw [← List.append_assoc]
      exact hu
    have hL : (k' ++ [rb, rb])[k.length]? = some rb := by
      rw [← hu']
      rw [List.getElem?_append_right le_rfl, Nat.sub_self]
      rfl
    rw [List.getElem?_append, if_pos hlt] at hL
    have hmem : rb ∈ k' := List.getElem?_mem hL
    exact (hk'.2 rb hmem).2 rfl
  · have hu0 : u = [] := by
      have : u.length = 0 := by omega
      exact List.length_eq_zero.mp this
    subst hu0
    rw [List.append_nil] at hu
    exact List.append_cancel_right hu
  · exfalso
    have := h.length_le
    simp [placeholderOf] at this
    omega

theorem placeholder_prefix_eq {k k' s : Str} (hk : okKey k) (hk' : okKey k')
    (h1 : placeholderOf k <+: s) (h2 : placeholderOf k' <+: s) : k = k' := by
  rcases Nat.le_total (placeholderOf k).length (placeholderOf k').length with hle | hle
  · exact placeholder_prefix_aux hk' (prefix_of_prefix_le h1 h2 hle)
  · exact (placeholder_prefix_aux hk (prefix_of_prefix_le h2 h1 hle)).symm

theorem placeholder_no_overlap {k k' s : Str} (hk : okKey k) (hk' : okKey k')
    (hpre : placeholderOf k' <+: s) {q : ℕ} (hq1 : 0 < q)
    (hq2 : q < (placeholderOf k').length)
    (hocc : placeholderOf k <+: s.drop q) : False := by
  obtain ⟨s2, rfl⟩ := hpre
  have hdropq : (placeholderOf k' ++ s2).drop q = (placeholderOf k').drop q ++ s2 :=
    List.drop_append_of_le_length (by omega)
  rw [hdropq] at hocc
  match q, hq1 with
  | 1, _ =>
      have hd : (placeholderOf k').drop 1 = lb :: (k' ++ [rb, rb]) := rfl
      rw [hd] at hocc
      rw [show (lb :: (k' ++ [rb, rb])) ++ s2 = lb :: ((k' ++ [rb, rb]) ++ s2) from rfl]
        at hocc
      rw [show placeholderOf k = lb :: (lb :: (k ++ [rb, rb])) from rfl] at hocc
      rw [List.cons_prefix_cons] at hocc
      obtain ⟨-, hocc2⟩ := hocc
      obtain ⟨u, hu⟩ := hocc2
      rcases hk'k : k' with _ | ⟨d, ds⟩
      · exact hk'.1 hk'k
      · rw [hk'k] at hu
        have hidx := congrArg (fun l => l[0]?) hu
        simp only [List.cons_append] at hidx
        simp only [List.getElem?_cons_zero] at hidx
        have hlbd : lb = d := by simpa using hidx
        have : d ∈ k' := by
          rw [hk'k]
          exact List.mem_cons_self d ds
        exact (hk'.2 d this).1 hlbd.symm
  | m + 2, _ =>
      have hq2' : m < (k' ++ [rb, rb]).length := by
        simp only [placeholderOf, List.length_cons, List.length_append,
          List.length_cons, List.length_nil] at hq2
        simp only [List.length_append, List.length_cons, List.length_nil]
        omega
      have hd : (placeholderOf k').drop (m + 2) = (k' ++ [rb, rb]).drop m := rfl
      rw [hd] at hocc
      rw [← List.getElem_cons_drop (k' ++ [rb, rb]) m hq2'] at hocc
      rw [show ((k' ++ [rb, rb])[m] :: (k' ++ [rb, rb]).drop (m + 1)) ++ s2 =
          (k' ++ [rb, rb])[m] :: ((k' ++ [rb, rb]).drop (m + 1) ++ s2) from rfl] at hocc
      rw [show placeholderOf k = lb :: (lb :: (k ++ [rb, rb])) from rfl] at hocc
      rw [List.cons_prefix_cons] at hocc
      obtain ⟨hlb, -⟩ := hocc
      have hmem : (k' ++ [rb, rb])[m] ∈ k' ++ [rb, rb] := List.getElem_mem hq2'
      rw [← hlb] at hmem
      rcases List.mem_append.mp hmem with hmk | hmr
      · exact (hk'.2 lb hmk).1 rfl
      · simp at hmr
        exact absurd hmr (by decide)

theorem replaceAll_copy_front (p v : Str) :
    ∀ (m : ℕ) (u : Str), (∀ j, j < m → ¬ p <+: u.drop j) →
      replaceAllL p v u = u.take m ++ replaceAllL p v (u.drop m)
  | 0, u, _ => by simp
  | m + 1, [], _ => by simp [replaceAllL_nil]
  | m + 1, c :: cs, h => by
      have h0 : ¬ p <+: c :: cs := by
        have := h 0 (by omega)
        simpa using this
      have hneg : ¬ (p.isPrefixOf (c :: cs) ∧ p ≠ []) := by
        intro hcon
        exact h0 (List.isPrefixOf_iff_prefix.mp hcon.1)
      rw [replaceAllL_cons_neg v hneg]
      rw [replaceAll_copy_front p v m cs (fun j hj => h (j + 1) (by omega))]
      simp

theorem replaceAll_preserves_other (v : Str) {k k' : Str}
    (hk : okKey k) (hk' : okKey k') (hne : k ≠ k') (s : Str) :
    placeholderOf k <:+: s →
      placeholderOf k <:+: replaceAllL (placeholderOf k') v s := by
  match s with
  | [] =>
      intro hocc
      rw [replaceAllL_nil]
      exact hocc
  | c :: cs =>
      intro hocc
      obtain ⟨pre, suf, hsum⟩ := hocc
      have hpk'ne : placeholderOf k' ≠ [] := by simp [placeholderOf]
      by_cases hp : (placeholderOf k').isPrefixOf (c :: cs)
      · have hppre : placeholderOf k' <+: (c :: cs) :=
          List.isPrefixOf_iff_prefix.mp hp
        rw [replaceAllL_cons_pos v ⟨hp, hpk'ne⟩]
        have hq : (placeholderOf k').length ≤ pre.length := by
          by_contra hlt
          push_neg at hlt
          rcases Nat.eq_zero_or_pos pre.length with h0 | hpos
          · have hpre0 : pre = [] := List.length_eq_zero.mp h0
            rw [hpre0, List.nil_append] at hsum
            have hkpre : placeholderOf k <+: (c :: cs) := ⟨suf, hsum⟩
            exact hne (placeholder_prefix_eq hk hk' hkpre hppre)
          · have hdropped : placeholderOf k <+: (c :: cs).drop pre.length := by
              rw [← hsum, List.append_assoc, List.drop_left]
              exact ⟨suf, rfl⟩
            exact placeholder_no_overlap hk hk' hppre hpos hlt hdropped
        have hocc' : placeholderOf k <:+: (c :: cs).drop (placeholderOf k').length := by
          rw [← hsum]
          have h1 : ((pre ++ placeholderOf k) ++ suf).drop (placeholderOf k').length =
              (pre ++ placeholderOf k).drop (placeholderOf k').length ++ suf :=
            List.drop_append_of_le_length (by simp; omega)
          have h2 : (pre ++ placeholderOf k).drop (placeholderOf k').length =
              pre.drop (placeholderOf k').length ++ placeholderOf k :=
            List.drop_append_of_le_length hq
          rw [h1, h2]
          exact ⟨pre.drop (placeholderOf k').length, suf, rfl⟩
        obtain ⟨a, b, hab⟩ := replaceAll_preserves_other v hk hk' hne
          ((c :: cs).drop (placeholderOf k').length) hocc'
        exact ⟨v ++ a, b, by rw [← hab]; simp⟩
      · rw [replaceAllL_cons_neg v (fun hcon => hp hcon.1)]
        rcases pre with _ | ⟨d, pre'⟩
        · rw [List.nil_append] at hsum
          have hpk : placeholderOf k <+: c :: cs := ⟨suf, hsum⟩
          obtain ⟨u, hu⟩ := id hpk
          have hnostart : ∀ j, j < (placeholderOf k).length - 1 →
              ¬ placeholderOf k' <+: cs.drop j := by
            intro j hj hcon
            have hlenpk : (placeholderOf k).length = k.length + 4 := by
              simp [placeholderOf]
            exact placeholder_no_overlap hk' hk hpk (q := j + 1) (by omega)
              (by omega) hcon
          have hcopy := replaceAll_copy_front (placeholderOf k') v
            ((placeholderOf k).length - 1) cs hnostart
          rw [hcopy]
          have hlenpk : 0 < (placeholderOf k).length := by simp [placeholderOf]
          have htake : placeholderOf k = c :: cs.take ((placeholderOf k).length - 1) := by
            have h1 := congrArg (List.take (placeholderOf k).length) hu
            rw [List.take_left] at h1
            rw [List.take_cons hlenpk] at h1
            exact h1
          refine ⟨[], replaceAllL (placeholderOf k') v
            (cs.drop ((placeholderOf k).length - 1)), ?_⟩
          rw [List.nil_append, htake]
          simp
        · have hd : d = c ∧ pre' ++ placeholderOf k ++ suf = cs := by
            rw [List.cons_append, List.cons_append] at hsum
            exact ⟨List.head_eq_of_cons_eq hsum, List.tail_eq_of_cons_eq hsum⟩
          obtain ⟨a, b, hab⟩ := replaceAll_preserves_other v hk hk' hne cs
            ⟨pre', suf, hd.2⟩
          exact ⟨c :: a, b, by rw [← hab]; simp⟩
termination_by s.length
decreasing_by
  · simp only [List.length_drop, List.length_cons]
    have : 0 < (placeholderOf k').length := by simp [placeholderOf]
    omega
  · simp

/-- **C8 (counterexample).** The replacements are applied sequentially in
attribute order, so a placeholder is not necessarily replaced by the value
of its own attribute, and a brace-bearing key can erase a foreign
placeholder: with host attributes `data-b="{{A}}", data-a="1"` the module
HTML `{{B}}` resolves to `1`, not to `data-b`'s value `{{A}}`; and with
the single attribute whose name is `data-` + `a}}x{{a` (key `A}}X{{A`) and
empty value, the HTML `{{A}}X{{A}}` loses its `{{A}}` occurrence although
no attribute key equals `A`.  Both traces are the program's: the regex
sources `{{B}}`, `{{A}}` and `{{A}}X{{A}}` contain no valid quantifier, so
each denotes its literal string, and the values involved are `$`-free. -/
theorem resolve_placeholders_not_simultaneous :
    (resolveHostPlaceholders
        [(str "data-b", placeholderOf (str "A")), (str "data-a", str "1")]
        (placeholderOf (str "B")) = str "1" ∧
      str "1" ≠ placeholderOf (str "A")) ∧
    (placeholderOf (str "A") <:+:
        (placeholderOf (str "A") ++ str "X" ++ placeholderOf (str "A")) ∧
      dataKey (str "data-" ++ ['a', rb, rb, 'x', lb, lb, 'a']) ≠ str "A" ∧
      ¬ placeholderOf (str "A") <:+:
        resolveHostPlaceholders
          [(str "data-" ++ ['a', rb, rb, 'x', lb, lb, 'a'], [])]
          (placeholderOf (str "A") ++ str "X" ++ placeholderOf (str "A"))) := by
  refine ⟨⟨?_, by decide⟩, ⟨?_, by decide, ?_⟩⟩
  · decide
  · decide
  · decide

/-- **C8 (amended).** Placeholder resolution replaces, for each `data-*`
attribute of the host in attribute order, every occurrence of `{{KEY}}`
(KEY the attribute name minus `data-`, uppercased) by the attribute's
value, each replacement acting on the result of the previous one; the host
is the text node's parent element for a text command and the element
itself for an attribute command.  Provided every `data-*` attribute key,
and the key `K` itself, is nonempty and consists only of characters that
are literal in JS regex source (uppercase ASCII letters, hyphens,
underscores — so each constructed `new RegExp('{{'+key+'}}','g')` matches
exactly the literal string `{{key}}`), and every attribute value is free
of the replacement-string metacharacter `$`, a placeholder `{{K}}` whose
key matches no `data-*` attribute key is left in the HTML. -/
theorem placeholders_unmatched_unchanged (K : Str) (hK : regexPlainKey K) :
    ∀ (attrs : List (Str × Str)) (html : Str),
      (∀ kv ∈ attrs, isDataAttr kv.1 = true →
        regexPlainKey (dataKey kv.1) ∧ dataKey kv.1 ≠ K ∧
          ∀ c ∈ kv.2, c ≠ '$') →
      placeholderOf K <:+: html →
      placeholderOf K <:+: resolveHostPlaceholders attrs html := by
  intro attrs
  induction attrs with
  | nil =>
      intro html _ hocc
      simpa [resolveHostPlaceholders] using hocc
  | cons kv attrs ih =>
      intro html hattrs hocc
      have hstep : resolveHostPlaceholders (kv :: attrs) html =
          resolveHostPlaceholders attrs
            (if isDataAttr kv.1 then
              replaceAllL (placeholderOf (dataKey kv.1)) kv.2 html
             else html) := by
        simp [resolveHostPlaceholders]
      rw [hstep]
      have hrest : ∀ kv' ∈ attrs, isDataAttr kv'.1 = true →
          regexPlainKey (dataKey kv'.1) ∧ dataKey kv'.1 ≠ K ∧
            ∀ c ∈ kv'.2, c ≠ '$' :=
        fun kv' h' => hattrs kv' (List.mem_cons_of_mem kv h')
      by_cases hd : isDataAttr kv.1
      · obtain ⟨hplain, hne, -⟩ := hattrs kv (List.mem_cons_self kv attrs) hd
        rw [if_pos hd]
        exact ih _ hrest
          (replaceAll_preserves_other kv.2 (regexPlainKey_okKey hK)
            (regexPlainKey_okKey hplain) (fun h => hne h.symm) html hocc)
      · rw [if_neg hd]
        exact ih _ hrest hocc

/-- Witness for C8: the placeholder `{{C}}` survives resolution against a
host carrying `data-a="1"` in the concrete HTML `x{{C}}y` (keys `C` and
`A` are regex-plain, the value `1` is `$`-free). -/
theorem placeholders_unmatched_unchanged_witness :
    (regexPlainKey (str "C") ∧
      (∀ kv ∈ [(str "data-a", str "1")], isDataAttr kv.1 = true →
        regexPlainKey (dataKey kv.1) ∧ dataKey kv.1 ≠ str "C" ∧
          ∀ c ∈ kv.2, c ≠ '$') ∧
      placeholderOf (str "C") <:+: (str "x" ++ placeholderOf (str "C") ++ str "y")) ∧
    placeholderOf (str "C") <:+:
      resolveHostPlaceholders [(str "data-a", str "1")]
        (str "x" ++ placeholderOf (str "C") ++ str "y") :=
  ⟨⟨by decide, by decide, by decide⟩,
   placeholders_unmatched_unchanged (str "C") (by decide)
     [(str "data-a", str "1")] (str "x" ++ placeholderOf (str "C") ++ str "y")
     (by decide) (by decide)⟩
